import Mathlib

/-!
Shallow embedding of the raytracer kernel (tuple algebra, square matrices,
ray/sphere intersection, intersection-set hit selection, canvas and PPM
encoder) together with proofs of the specification claims.

The generic float type `T : Float` of the source is embedded as a linear
ordered field `α`; `f64` square-root calls are embedded as an explicit
`sqrt : α → α` parameter threaded to the operations that use it.
-/

namespace RayTracer

/-- Embeds `EPSILON` of float_service.rs (`0.00001`). -/
def EPSILON {α : Type} [LinearOrderedField α] : α := 1 / 100000

/-- Embeds `compare_floats` of float_service.rs: `|x - y| < EPSILON`.
(`T::from(EPSILON)` always succeeds for the float types the program uses,
so the `None => false` branch is unreachable in the embedding.) -/
def compareFloats {α : Type} [LinearOrderedField α] (x y : α) : Prop :=
  |x - y| < EPSILON

instance {α : Type} [LinearOrderedField α] (x y : α) :
    Decidable (compareFloats x y) := by
  unfold compareFloats; infer_instance

/-- Embeds `Tuple<T>` of tuple.rs: four float components. -/
structure Tuple (α : Type) where
  x : α
  y : α
  z : α
  w : α
deriving DecidableEq

/-- Embeds `Tuple::new`. -/
def Tuple.new {α : Type} (x y z w : α) : Tuple α := ⟨x, y, z, w⟩

/-- Embeds `Tuple::new_point` (w = 1). -/
def Tuple.newPoint {α : Type} [LinearOrderedField α] (x y z : α) : Tuple α :=
  ⟨x, y, z, 1⟩

/-- Embeds `Tuple::new_vector` (w = 0). -/
def Tuple.newVector {α : Type} [LinearOrderedField α] (x y z : α) : Tuple α :=
  ⟨x, y, z, 0⟩

/-- Embeds `Add for Tuple` (component-wise, including w). -/
def Tuple.add {α : Type} [LinearOrderedField α] (a b : Tuple α) : Tuple α :=
  ⟨a.x + b.x, a.y + b.y, a.z + b.z, a.w + b.w⟩

/-- Embeds `Sub for Tuple` (component-wise, including w). -/
def Tuple.sub {α : Type} [LinearOrderedField α] (a b : Tuple α) : Tuple α :=
  ⟨a.x - b.x, a.y - b.y, a.z - b.z, a.w - b.w⟩

instance {α : Type} [LinearOrderedField α] : Add (Tuple α) := ⟨Tuple.add⟩

instance {α : Type} [LinearOrderedField α] : Sub (Tuple α) := ⟨Tuple.sub⟩

/-- Embeds `Mul<T> for Tuple` (scalar multiple). -/
def Tuple.mulScalar {α : Type} [LinearOrderedField α] (a : Tuple α) (r : α) :
    Tuple α :=
  ⟨a.x * r, a.y * r, a.z * r, a.w * r⟩

/-- Embeds `Tuple::magnitude`: `sqrt (x² + y² + z² + w²)`, with the float
square root passed explicitly. -/
def Tuple.magnitude {α : Type} [LinearOrderedField α] (sqrt : α → α)
    (a : Tuple α) : α :=
  sqrt (a.x ^ 2 + a.y ^ 2 + a.z ^ 2 + a.w ^ 2)

/-- Embeds `Tuple::normalize`: each component divided by the magnitude. -/
def Tuple.normalize {α : Type} [LinearOrderedField α] (sqrt : α → α)
    (a : Tuple α) : Tuple α :=
  ⟨a.x / a.magnitude sqrt, a.y / a.magnitude sqrt,
   a.z / a.magnitude sqrt, a.w / a.magnitude sqrt⟩

/-- Embeds `Tuple::dot_product` (all four components). -/
def Tuple.dotProduct {α : Type} [LinearOrderedField α] (a b : Tuple α) : α :=
  a.x * b.x + a.y * b.y + a.z * b.z + a.w * b.w

/-- Embeds `PartialEq for Tuple`: epsilon compare on x, y and z only. -/
def tupleEq {α : Type} [LinearOrderedField α] (a b : Tuple α) : Prop :=
  compareFloats a.x b.x ∧ compareFloats a.y b.y ∧ compareFloats a.z b.z

instance {α : Type} [LinearOrderedField α] (a b : Tuple α) :
    Decidable (tupleEq a b) := by
  unfold tupleEq; infer_instance

/-! ### Matrices (matrix.rs)

`Matrix<T, N>` is embedded as Mathlib's `Matrix (Fin n) (Fin n) α`.
Index-out-of-bounds panics are embedded as `Option`/`Except` failures. -/

/-- Embeds `Matrix::get`: bounds-checked lookup by raw indices. -/
def matGet {α : Type} {n : ℕ} (m : Matrix (Fin n) (Fin n) α) (i1 i2 : ℕ) :
    Option α :=
  if h : i1 < n ∧ i2 < n then some (m ⟨i1, h.1⟩ ⟨i2, h.2⟩) else none

/-- Embeds `Matrix::insert`: bounds-checked update, failing with the
`"index out of bounds"` error on an out-of-range index. -/
def matInsert {α : Type} {n : ℕ} (m : Matrix (Fin n) (Fin n) α) (i1 i2 : ℕ)
    (number : α) : Except String (Matrix (Fin n) (Fin n) α) :=
  if h1 : i1 < n then
    if h2 : i2 < n then
      Except.ok (m.updateRow ⟨i1, h1⟩ (Function.update (m ⟨i1, h1⟩) ⟨i2, h2⟩ number))
    else Except.error "index out of bounds"
  else Except.error "index out of bounds"

/-- Embeds `Matrix::<T, 4>::identity_matrix`. -/
def identityMatrix {α : Type} [LinearOrderedField α] :
    Matrix (Fin 4) (Fin 4) α :=
  Matrix.of fun i j => if i = j then 1 else 0

/-- Embeds `Matrix::<T, 4>::sub_matrix`: delete the given row and column.
The source loop copies row `x` of the input to row `matrix_row` of the
output, skipping `x = row`; the surviving input index for output index `i`
is `i` when `i < row` and `i + 1` otherwise, which is `row.succAbove i`. -/
def subMatrix4 {α : Type} (m : Matrix (Fin 4) (Fin 4) α) (row col : Fin 4) :
    Matrix (Fin 3) (Fin 3) α :=
  Matrix.of fun i j => m (row.succAbove i) (col.succAbove j)

/-- Embeds `Matrix::<T, 3>::sub_matrix` (same row/column deletion loop). -/
def subMatrix3 {α : Type} (m : Matrix (Fin 3) (Fin 3) α) (row col : Fin 3) :
    Matrix (Fin 2) (Fin 2) α :=
  Matrix.of fun i j => m (row.succAbove i) (col.succAbove j)

/-- Embeds `Matrix::<T, 2>::determinant`: `a·d − b·c`. -/
def determinant2 {α : Type} [LinearOrderedField α]
    (m : Matrix (Fin 2) (Fin 2) α) : α :=
  m 0 0 * m 1 1 - m 0 1 * m 1 0

/-- Embeds `Matrix::<T, 3>::minor`. -/
def minor3 {α : Type} [LinearOrderedField α] (m : Matrix (Fin 3) (Fin 3) α)
    (row col : Fin 3) : α :=
  determinant2 (subMatrix3 m row col)

/-- Embeds `Matrix::<T, 3>::cofactor`: the minor, negated when
`(row + col)` is odd. -/
def cofactor3 {α : Type} [LinearOrderedField α] (m : Matrix (Fin 3) (Fin 3) α)
    (row col : Fin 3) : α :=
  if (row.val + col.val) % 2 = 0 then minor3 m row col else -minor3 m row col

/-- Embeds `Matrix::<T, 3>::determinant`: cofactor expansion along row 0. -/
def determinant3 {α : Type} [LinearOrderedField α]
    (m : Matrix (Fin 3) (Fin 3) α) : α :=
  ∑ col : Fin 3, m 0 col * cofactor3 m 0 col

/-- Embeds `Matrix::<T, 4>::minor`. -/
def minor4 {α : Type} [LinearOrderedField α] (m : Matrix (Fin 4) (Fin 4) α)
    (row col : Fin 4) : α :=
  determinant3 (subMatrix4 m row col)

/-- Embeds `Matrix::<T, 4>::cofactor`. -/
def cofactor4 {α : Type} [LinearOrderedField α] (m : Matrix (Fin 4) (Fin 4) α)
    (row col : Fin 4) : α :=
  if (row.val + col.val) % 2 = 0 then minor4 m row col else -minor4 m row col

/-- Embeds `Matrix::<T, 4>::determinant`: cofactor expansion along row 0. -/
def determinant4 {α : Type} [LinearOrderedField α]
    (m : Matrix (Fin 4) (Fin 4) α) : α :=
  ∑ col : Fin 4, m 0 col * cofactor4 m 0 col

/-- Embeds `Matrix::<T, 4>::invertible`: the determinant is nonzero. -/
def invertibleM {α : Type} [LinearOrderedField α]
    (m : Matrix (Fin 4) (Fin 4) α) : Prop :=
  determinant4 m ≠ 0

instance {α : Type} [LinearOrderedField α] (m : Matrix (Fin 4) (Fin 4) α) :
    Decidable (invertibleM m) := by
  unfold invertibleM; infer_instance

/-- The matrix built by the success branch of `Matrix::<T, 4>::inverse`:
cell `(col, row)` of the result is `cofactor(row, col) / determinant`,
i.e. entry `(i, j)` is `cofactor(j, i) / determinant`. -/
def inv4 {α : Type} [LinearOrderedField α] (m : Matrix (Fin 4) (Fin 4) α) :
    Matrix (Fin 4) (Fin 4) α :=
  Matrix.of fun i j => cofactor4 m j i / determinant4 m

/-- Embeds `Matrix::<T, 4>::inverse`: `inv4` when invertible, otherwise the
error — whose payload in the source is the string `"index out of bounds"`. -/
def inverseM {α : Type} [LinearOrderedField α] (m : Matrix (Fin 4) (Fin 4) α) :
    Except String (Matrix (Fin 4) (Fin 4) α) :=
  if invertibleM m then Except.ok (inv4 m) else Except.error "index out of bounds"

/-- Embeds `Matrix::<T, 4>::scaling`: the identity matrix with cells
`[0][0]`, `[1][1]`, `[2][2]` overwritten by x, y, z. -/
def scalingM {α : Type} [LinearOrderedField α] (x y z : α) :
    Matrix (Fin 4) (Fin 4) α :=
  !![x, 0, 0, 0; 0, y, 0, 0; 0, 0, z, 0; 0, 0, 0, 1]

/-- Embeds `Mul for Matrix` (the triple loop accumulating
`self[row][index] * rhs[index][col]`). -/
def matMul {α : Type} [LinearOrderedField α] {n : ℕ}
    (m rhs : Matrix (Fin n) (Fin n) α) : Matrix (Fin n) (Fin n) α :=
  Matrix.of fun row col => ∑ index : Fin n, m row index * rhs index col

/-- Embeds `Index for Tuple`: `tuple[i]`, panicking (none) above 3. -/
def tupleGet {α : Type} (t : Tuple α) (i : ℕ) : Option α :=
  match i with
  | 0 => some t.x
  | 1 => some t.y
  | 2 => some t.z
  | 3 => some t.w
  | _ => none

/-- One iteration of the outer loop of `Mul<Tuple<T>> for Matrix`: the dot
product of row `i` (indices `y = 0..3` hardcoded, whatever the dimension
`n`) with the tuple; `none` models the index-out-of-bounds panic. -/
def rowDotChecked {α : Type} [LinearOrderedField α] {n : ℕ}
    (m : Matrix (Fin n) (Fin n) α) (rhs : Tuple α) (i : ℕ) : Option α := do
  let a0 ← matGet m i 0
  let t0 ← tupleGet rhs 0
  let a1 ← matGet m i 1
  let t1 ← tupleGet rhs 1
  let a2 ← matGet m i 2
  let t2 ← tupleGet rhs 2
  let a3 ← matGet m i 3
  let t3 ← tupleGet rhs 3
  pure (a0 * t0 + a1 * t1 + a2 * t2 + a3 * t3)

/-- Embeds `Mul<Tuple<T>> for Matrix<T, N>`: rows `i = 0..3` are always
traversed, so any dimension other than 4 hits an out-of-bounds access
(`none`, the panic). -/
def mulTupleChecked {α : Type} [LinearOrderedField α] {n : ℕ}
    (m : Matrix (Fin n) (Fin n) α) (rhs : Tuple α) : Option (Tuple α) := do
  let c0 ← rowDotChecked m rhs 0
  let c1 ← rowDotChecked m rhs 1
  let c2 ← rowDotChecked m rhs 2
  let c3 ← rowDotChecked m rhs 3
  pure ⟨c0, c1, c2, c3⟩

/-- The in-bounds evaluation of `Mul<Tuple<T>> for Matrix<T, 4>` (every
access of the loop is within range for dimension 4; see
`mulTupleChecked_eq_four`). -/
def mulTuple4 {α : Type} [LinearOrderedField α]
    (m : Matrix (Fin 4) (Fin 4) α) (rhs : Tuple α) : Tuple α :=
  ⟨m 0 0 * rhs.x + m 0 1 * rhs.y + m 0 2 * rhs.z + m 0 3 * rhs.w,
   m 1 0 * rhs.x + m 1 1 * rhs.y + m 1 2 * rhs.z + m 1 3 * rhs.w,
   m 2 0 * rhs.x + m 2 1 * rhs.y + m 2 2 * rhs.z + m 2 3 * rhs.w,
   m 3 0 * rhs.x + m 3 1 * rhs.y + m 3 2 * rhs.z + m 3 3 * rhs.w⟩

/-- For dimension 4 the tuple multiplication never goes out of bounds and
computes `mulTuple4`. -/
theorem mulTupleChecked_eq_four {α : Type} [LinearOrderedField α]
    (m : Matrix (Fin 4) (Fin 4) α) (rhs : Tuple α) :
    mulTupleChecked m rhs = some (mulTuple4 m rhs) := rfl

/-! ### Rays (ray.rs) and spheres (sphere.rs) -/

/-- Embeds `Ray<T>`. -/
structure Ray (α : Type) where
  origin : Tuple α
  direction : Tuple α

/-- Embeds `Ray::transform`: origin and direction both multiplied by the
matrix (the dimension-4 instance of `Mul<Tuple<T>>`, total here). -/
def Ray.transform {α : Type} [LinearOrderedField α] (r : Ray α)
    (translation : Matrix (Fin 4) (Fin 4) α) : Ray α :=
  ⟨mulTuple4 translation r.origin, mulTuple4 translation r.direction⟩

/-- Embeds `Sphere<T>`: an id and an owned 4×4 transform. -/
structure Sphere (α : Type) where
  id : ℤ
  transformation : Matrix (Fin 4) (Fin 4) α
deriving DecidableEq

/-- Embeds `Sphere::new`: identity transform. -/
def Sphere.new {α : Type} [LinearOrderedField α] (id : ℤ) : Sphere α :=
  ⟨id, identityMatrix⟩

/-- Embeds `Sphere::set_translation`. -/
def Sphere.setTranslation {α : Type} (s : Sphere α)
    (transformation : Matrix (Fin 4) (Fin 4) α) : Sphere α :=
  { s with transformation := transformation }

/-- Embeds `Intersection<T, O>`. -/
structure Intersection (α : Type) (O : Type) where
  value : α
  object : O
deriving DecidableEq

/-- Embeds `Sphere::intersect` (the `IntersectionObject` impl): invert the
transform (propagating failure as `"inverse failed"`), move the ray to
object space, solve the quadratic; negative discriminant fails with
`"Discriminant is lower then 0"`, otherwise exactly two intersection
records holding clones of the sphere are returned. -/
def Sphere.intersect {α : Type} [LinearOrderedField α] (sqrt : α → α)
    (s : Sphere α) (ray : Ray α) :
    Except String (List (Intersection α (Sphere α))) :=
  match inverseM s.transformation with
  | Except.error _ => Except.error "inverse failed"
  | Except.ok inv =>
    let ray2 := ray.transform inv
    let sphereToRay := ray2.origin - Tuple.newPoint 0 0 0
    let a := ray2.direction.dotProduct ray2.direction
    let b := ray2.direction.dotProduct sphereToRay * 2
    let c := sphereToRay.dotProduct sphereToRay - 1
    let discriminant := b ^ 2 - 4 * a * c
    if discriminant < 0 then Except.error "Discriminant is lower then 0"
    else
      Except.ok [⟨(-b - sqrt discriminant) / (2 * a), s⟩,
                 ⟨(-b + sqrt discriminant) / (2 * a), s⟩]

/-- The object-space ray of `Sphere::intersect`: the incoming ray
transformed by the inverse of the sphere's transform. -/
def objectSpaceRay {α : Type} [LinearOrderedField α] (s : Sphere α)
    (ray : Ray α) : Ray α :=
  ray.transform (inv4 s.transformation)

/-- The discriminant `b² − 4ac` of the object-space quadratic computed by
`Sphere::intersect`. -/
def discriminantOf {α : Type} [LinearOrderedField α] (s : Sphere α)
    (ray : Ray α) : α :=
  let ray2 := objectSpaceRay s ray
  let sphereToRay := ray2.origin - Tuple.newPoint 0 0 0
  let a := ray2.direction.dotProduct ray2.direction
  let b := ray2.direction.dotProduct sphereToRay * 2
  let c := sphereToRay.dotProduct sphereToRay - 1
  b ^ 2 - 4 * a * c

/-- Embeds `Sphere::normal_at`: `(point − origin).normalize()`, computed in
the frame passed in; the sphere's transform is never read. -/
def Sphere.normalAt {α : Type} [LinearOrderedField α] (sqrt : α → α)
    (_s : Sphere α) (point : Tuple α) : Tuple α :=
  (point - Tuple.newPoint 0 0 0).normalize sqrt

/-! ### Intersection sets and hit selection (intersection.rs)

The fixed-size array `[Intersection<T, O>; N]` is embedded as a list. -/

/-- One step of the scan in `Intersections::hit`: a strictly positive
parameter replaces an empty accumulator, or a strictly larger current
closest value. -/
def hitStep {α : Type} [LinearOrderedField α] {O : Type}
    (acc : Option (Intersection α O)) (inter : Intersection α O) :
    Option (Intersection α O) :=
  if 0 < inter.value then
    match acc with
    | none => some inter
    | some closest =>
      if closest.value > inter.value then some inter else some closest
  else acc

/-- Embeds `Intersections::hit`: a single left-to-right compare-and-replace
scan over the records. -/
def hit {α : Type} [LinearOrderedField α] {O : Type}
    (data : List (Intersection α O)) : Option (Intersection α O) :=
  data.foldl hitStep none

/-- Modelled from the claim text (reference definition for C1, not from the
source): the first record attaining the minimal value in a list; on a tie
the earlier record wins. -/
def firstMin {α : Type} [LinearOrderedField α] {O : Type} :
    List (Intersection α O) → Option (Intersection α O)
  | [] => none
  | x :: xs =>
    match firstMin xs with
    | none => some x
    | some m => if m.value < x.value then some m else some x

/-- Modelled from the claim text (reference definition for C1): keep the
records with strictly positive parameter and take the first minimal one. -/
def specHit {α : Type} [LinearOrderedField α] {O : Type}
    (data : List (Intersection α O)) : Option (Intersection α O) :=
  firstMin (data.filter fun i => 0 < i.value)

/-! ### Lemmas about hit selection -/

/-- Combining an already-found candidate `c` with the result of scanning a
later suffix: the smaller value wins, `c` on ties. -/
def hitMerge {α : Type} [LinearOrderedField α] {O : Type}
    (acc : Option (Intersection α O)) (c : Intersection α O) :
    Option (Intersection α O) :=
  match acc with
  | none => some c
  | some m => if m.value < c.value then some m else some c

theorem hitMerge_hitMerge {α : Type} [LinearOrderedField α] {O : Type}
    (acc : Option (Intersection α O)) (x c : Intersection α O) :
    hitMerge (hitMerge acc x) c =
      if x.value < c.value then hitMerge acc x else hitMerge acc c := by
  cases acc with
  | none => simp [hitMerge]
  | some m =>
    by_cases h1 : m.value < x.value <;> by_cases h2 : x.value < c.value <;>
      by_cases h3 : m.value < c.value <;>
        (try simp [hitMerge, h1, h2, h3]) <;> (exfalso; linarith)

theorem foldl_hitStep_some {α : Type} [LinearOrderedField α] {O : Type}
    (l : List (Intersection α O)) (c : Intersection α O) :
    l.foldl hitStep (some c) = hitMerge (l.foldl hitStep none) c := by
  induction l generalizing c with
  | nil => rfl
  | cons x xs ih =>
    simp only [List.foldl_cons]
    by_cases hx : 0 < x.value
    · have hsome : hitStep (some c) x =
          if x.value < c.value then some x else some c := by
        simp only [hitStep, if_pos hx, gt_iff_lt]
      have hnone : hitStep none x = some x := by
        simp only [hitStep, if_pos hx]
      rw [hsome, hnone, ih x]
      by_cases hxc : x.value < c.value
      · rw [if_pos hxc, ih x, hitMerge_hitMerge, if_pos hxc]
      · rw [if_neg hxc, ih c, hitMerge_hitMerge, if_neg hxc]
    · have hsome : hitStep (some c) x = some c := by
        simp only [hitStep, if_neg hx]
      have hnone : hitStep none x = none := by
        simp only [hitStep, if_neg hx]
      rw [hsome, hnone, ih c]

theorem firstMin_cons {α : Type} [LinearOrderedField α] {O : Type}
    (x : Intersection α O) (l : List (Intersection α O)) :
    firstMin (x :: l) = hitMerge (firstMin l) x := by
  cases h : firstMin l <;> simp [firstMin, hitMerge, h]

theorem firstMin_eq_none_iff {α : Type} [LinearOrderedField α] {O : Type}
    (l : List (Intersection α O)) : firstMin l = none ↔ l = [] := by
  cases l with
  | nil => simp [firstMin]
  | cons x xs =>
    simp only [firstMin]
    constructor
    · intro h
      cases hx : firstMin xs <;> simp [hx] at h
      split at h <;> simp_all
    · intro h
      exact absurd h (List.cons_ne_nil x xs)

theorem firstMin_spec {α : Type} [LinearOrderedField α] {O : Type}
    (l : List (Intersection α O)) :
    ∀ m : Intersection α O, firstMin l = some m →
      m ∈ l ∧ ∀ i ∈ l, m.value ≤ i.value := by
  induction l with
  | nil => intro m h; simp [firstMin] at h
  | cons x xs ih =>
    intro m h
    rw [firstMin_cons] at h
    cases hx : firstMin xs with
    | none =>
      rw [hx] at h
      have hxs : xs = [] := (firstMin_eq_none_iff xs).mp hx
      simp only [hitMerge] at h
      obtain rfl : x = m := by injection h
      subst hxs
      simp
    | some m' =>
      rw [hx] at h
      obtain ⟨hmem, hmin⟩ := ih m' hx
      simp only [hitMerge] at h
      split_ifs at h with hlt
      · obtain rfl : m' = m := by injection h
        refine ⟨List.mem_cons_of_mem x hmem, ?_⟩
        intro i hi
        rcases List.mem_cons.mp hi with rfl | hi'
        · exact le_of_lt hlt
        · exact hmin i hi'
      · obtain rfl : x = m := by injection h
        refine ⟨List.mem_cons_self x xs, ?_⟩
        intro i hi
        rcases List.mem_cons.mp hi with rfl | hi'
        · exact le_refl _
        · exact le_trans (not_lt.mp hlt) (hmin i hi')

theorem hit_eq_specHit {α : Type} [LinearOrderedField α] {O : Type}
    (l : List (Intersection α O)) : hit l = specHit l := by
  induction l with
  | nil => rfl
  | cons x xs ih =>
    by_cases hx : 0 < x.value
    · have h1 : hit (x :: xs) = hitMerge (hit xs) x := by
        simp only [hit, List.foldl_cons]
        have : hitStep none x = some x := by simp only [hitStep, if_pos hx]
        rw [this, foldl_hitStep_some]
      rw [h1, ih]
      simp only [specHit, List.filter_cons, decide_eq_true_eq, if_pos hx,
        firstMin_cons]
    · have h1 : hit (x :: xs) = hit xs := by
        simp only [hit, List.foldl_cons]
        have : hitStep none x = none := by simp only [hitStep, if_neg hx]
        rw [this]
      rw [h1, ih]
      simp only [specHit, List.filter_cons, decide_eq_true_eq, if_neg hx]

/-- C1: `Intersections::hit` keeps only records with strictly positive
parameter, returns the first record attaining the minimal such parameter
(first-encountered wins on ties, as captured by `specHit`/`firstMin`),
and returns `none` exactly when no record has a positive parameter. -/
theorem hit_selects_first_minimal_positive {α : Type} [LinearOrderedField α]
    {O : Type} (data : List (Intersection α O)) :
    hit data = specHit data ∧
    (hit data = none ↔ ∀ i ∈ data, i.value ≤ 0) ∧
    (∀ r, hit data = some r →
      r ∈ data ∧ 0 < r.value ∧ ∀ i ∈ data, 0 < i.value → r.value ≤ i.value) := by
  refine ⟨hit_eq_specHit data, ?_, ?_⟩
  · rw [hit_eq_specHit data]
    unfold specHit
    rw [firstMin_eq_none_iff, List.filter_eq_nil_iff]
    simp only [decide_eq_true_eq, not_lt]
  · intro r hr
    rw [hit_eq_specHit data] at hr
    unfold specHit at hr
    obtain ⟨hmem, hmin⟩ := firstMin_spec _ _ hr
    rw [List.mem_filter] at hmem
    refine ⟨hmem.1, of_decide_eq_true hmem.2, ?_⟩
    intro i hi hipos
    exact hmin i (List.mem_filter.mpr ⟨hi, decide_eq_true hipos⟩)

/-- Witness for C1: evaluated on the four-record example of the tests
(values 5, 7, −3, 2 on the unit sphere), the scan returns the record with
value 2. -/
theorem hit_selects_first_minimal_positive_witness :
    hit [⟨(5 : ℚ), (Sphere.new 1 : Sphere ℚ)⟩, ⟨7, Sphere.new 1⟩,
         ⟨-3, Sphere.new 1⟩, ⟨2, Sphere.new 1⟩] =
      some ⟨2, Sphere.new 1⟩ := by
  have h := hit_selects_first_minimal_positive
    [⟨(5 : ℚ), (Sphere.new 1 : Sphere ℚ)⟩, ⟨7, Sphere.new 1⟩,
     ⟨-3, Sphere.new 1⟩, ⟨2, Sphere.new 1⟩]
  rw [h.1]
  decide

/-! ### Lemmas linking the cofactor expansion to Mathlib's determinant -/

theorem cofSign {α : Type} [LinearOrderedField α] (k : ℕ) (x : α) :
    (if k % 2 = 0 then x else -x) = (-1) ^ k * x := by
  rcases Nat.even_or_odd k with h | h
  · rw [if_pos (Nat.even_iff.mp h), h.neg_one_pow, one_mul]
  · rw [if_neg (by simp [Nat.odd_iff.mp h]), h.neg_one_pow, neg_one_mul]

theorem determinant2_eq {α : Type} [LinearOrderedField α]
    (m : Matrix (Fin 2) (Fin 2) α) : determinant2 m = m.det :=
  (Matrix.det_fin_two m).symm

theorem determinant3_eq {α : Type} [LinearOrderedField α]
    (m : Matrix (Fin 3) (Fin 3) α) : determinant3 m = m.det := by
  rw [Matrix.det_succ_row_zero]
  unfold determinant3
  refine Finset.sum_congr rfl fun j _ => ?_
  have h1 : cofactor3 m 0 j =
      (-1) ^ (j : ℕ) * (m.submatrix Fin.succ j.succAbove).det := by
    unfold cofactor3
    rw [show ((0 : Fin 3).val + j.val) = j.val by simp [Fin.val_zero],
      cofSign]
    congr 1
    unfold minor3
    rw [determinant2_eq]
    congr 1
  rw [h1]
  ring

theorem determinant4_eq {α : Type} [LinearOrderedField α]
    (m : Matrix (Fin 4) (Fin 4) α) : determinant4 m = m.det := by
  rw [Matrix.det_succ_row_zero]
  unfold determinant4
  refine Finset.sum_congr rfl fun j _ => ?_
  have h1 : cofactor4 m 0 j =
      (-1) ^ (j : ℕ) * (m.submatrix Fin.succ j.succAbove).det := by
    unfold cofactor4
    rw [show ((0 : Fin 4).val + j.val) = j.val by simp [Fin.val_zero],
      cofSign]
    congr 1
    unfold minor4
    rw [determinant3_eq]
    congr 1
  rw [h1]
  ring

theorem cofactor4_eq {α : Type} [LinearOrderedField α]
    (m : Matrix (Fin 4) (Fin 4) α) (r c : Fin 4) :
    cofactor4 m r c =
      (-1) ^ (r.val + c.val) * (m.submatrix r.succAbove c.succAbove).det := by
  unfold cofactor4
  rw [cofSign]
  congr 1
  unfold minor4
  rw [determinant3_eq]
  rfl

theorem inv4_eq_nonsingInv {α : Type} [LinearOrderedField α]
    (m : Matrix (Fin 4) (Fin 4) α) (h : determinant4 m ≠ 0) :
    inv4 m = m⁻¹ := by
  have hd : m.det ≠ 0 := by rw [← determinant4_eq]; exact h
  ext i j
  rw [Matrix.inv_def]
  simp only [Matrix.smul_apply, smul_eq_mul, Ring.inverse_eq_inv]
  rw [Matrix.adjugate_fin_succ_eq_det_submatrix]
  show cofactor4 m j i / determinant4 m = _
  rw [cofactor4_eq, determinant4_eq, div_eq_mul_inv]
  ring

theorem matMul_eq {α : Type} [LinearOrderedField α] {n : ℕ}
    (a b : Matrix (Fin n) (Fin n) α) : matMul a b = a * b := by
  ext i j
  rw [Matrix.mul_apply]
  rfl

theorem identityMatrix_eq_one {α : Type} [LinearOrderedField α] :
    (identityMatrix : Matrix (Fin 4) (Fin 4) α) = 1 := by
  ext i j
  simp [identityMatrix, Matrix.one_apply]

/-- Embeds `PartialEq for Matrix`: epsilon-tolerant cell-wise comparison. -/
def matrixEq {α : Type} [LinearOrderedField α] {n : ℕ}
    (a b : Matrix (Fin n) (Fin n) α) : Prop :=
  ∀ row col, compareFloats (a row col) (b row col)

instance {α : Type} [LinearOrderedField α] {n : ℕ}
    (a b : Matrix (Fin n) (Fin n) α) : Decidable (matrixEq a b) := by
  unfold matrixEq; infer_instance

theorem matrixEq_refl {α : Type} [LinearOrderedField α] {n : ℕ}
    (a : Matrix (Fin n) (Fin n) α) : matrixEq a a := by
  intro r c
  unfold compareFloats EPSILON
  rw [sub_self, abs_zero]
  norm_num

/-! ### Claims C4 and C5: matrix inversion -/

/-- C4 (demonstrating the code bug at the failing input): inverting the
singular zero matrix fails — as the claim requires — but the error payload
is the very string `"index out of bounds"` that `Matrix::insert` reports
for an out-of-range access, so the two failure kinds are *not* distinct;
the final conjunct shows inversion fails exactly on zero determinant. -/
theorem inverse_singular_error_equals_oob_error :
    inverseM (0 : Matrix (Fin 4) (Fin 4) ℚ) = Except.error "index out of bounds" ∧
    matInsert (0 : Matrix (Fin 4) (Fin 4) ℚ) 0 4 (7 : ℚ) =
      Except.error "index out of bounds" ∧
    ∀ m : Matrix (Fin 4) (Fin 4) ℚ,
      inverseM m = Except.error "index out of bounds" ↔ determinant4 m = 0 := by
  have hz : determinant4 (0 : Matrix (Fin 4) (Fin 4) ℚ) = 0 := by
    rw [determinant4_eq, Matrix.det_zero ⟨0⟩]
  refine ⟨?_, ?_, ?_⟩
  · unfold inverseM
    rw [if_neg (by simp [invertibleM, hz])]
  · rfl
  intro m
  unfold inverseM invertibleM
  constructor
  · intro h
    by_contra hne
    rw [if_pos hne] at h
    exact absurd h (by simp)
  · intro h
    rw [if_neg (by simp [h])]

/-- C5: for every invertible 4×4 matrix, `inverse` succeeds, inverting
twice returns the original matrix up to the epsilon-tolerant matrix
equality, and multiplying by the inverse returns the identity matrix up to
the same tolerance. -/
theorem inverse_involution_and_mul_identity {α : Type} [LinearOrderedField α]
    (m : Matrix (Fin 4) (Fin 4) α) (h : invertibleM m) :
    inverseM m = Except.ok (inv4 m) ∧
    matrixEq (inv4 (inv4 m)) m ∧
    matrixEq (matMul m (inv4 m)) identityMatrix := by
  have h' : determinant4 m ≠ 0 := h
  have hd : m.det ≠ 0 := by rw [← determinant4_eq]; exact h'
  have hu : IsUnit m.det := isUnit_iff_ne_zero.mpr hd
  have hinv : inv4 m = m⁻¹ := inv4_eq_nonsingInv m h'
  refine ⟨by unfold inverseM; rw [if_pos h], ?_, ?_⟩
  · have hd2 : determinant4 (inv4 m) ≠ 0 := by
      rw [hinv, determinant4_eq, Matrix.det_nonsing_inv, Ring.inverse_eq_inv]
      exact inv_ne_zero hd
    rw [inv4_eq_nonsingInv _ hd2, hinv, Matrix.nonsing_inv_nonsing_inv m hu]
    exact matrixEq_refl m
  · rw [matMul_eq, hinv, Matrix.mul_nonsing_inv m hu, identityMatrix_eq_one]
    exact matrixEq_refl 1

/-- The scaling matrix by 2 on all axes times the one by ½ is the
identity (used to discharge invertibility side conditions at concrete
transforms). -/
theorem scalingM_mul_half {α : Type} [LinearOrderedField α] :
    scalingM (2 : α) 2 2 * scalingM (2⁻¹) (2⁻¹) (2⁻¹) = 1 := by
  ext i j
  fin_cases i <;> fin_cases j <;>
    simp [scalingM, Matrix.mul_apply, Fin.sum_univ_four, Matrix.one_apply,
      Matrix.vecHead, Matrix.vecTail]

/-- A matrix with a right inverse is `invertible()` in the source sense. -/
theorem invertibleM_of_right_inv {α : Type} [LinearOrderedField α]
    (a b : Matrix (Fin 4) (Fin 4) α) (h : a * b = 1) : invertibleM a := by
  unfold invertibleM
  rw [determinant4_eq]
  intro h0
  have hdet := congrArg Matrix.det h
  rw [Matrix.det_mul, Matrix.det_one, h0, zero_mul] at hdet
  exact zero_ne_one hdet

/-- Witness for C5: instantiated at the invertible rational matrix
`scaling(2, 2, 2)`, the hypothesis discharged through its right inverse. -/
theorem inverse_involution_and_mul_identity_witness :
    invertibleM (scalingM (2 : ℚ) 2 2) ∧
    matrixEq (inv4 (inv4 (scalingM (2 : ℚ) 2 2))) (scalingM (2 : ℚ) 2 2) ∧
    matrixEq (matMul (scalingM (2 : ℚ) 2 2) (inv4 (scalingM (2 : ℚ) 2 2)))
      identityMatrix := by
  have h : invertibleM (scalingM (2 : ℚ) 2 2) :=
    invertibleM_of_right_inv _ _ scalingM_mul_half
  have hmain := inverse_involution_and_mul_identity (scalingM (2 : ℚ) 2 2) h
  exact ⟨h, hmain.2.1, hmain.2.2⟩

/-! ### Claims C2 and C3: sphere intersection -/

/-- C2: `Sphere::intersect` fails exactly when the transform is not
invertible (error `"inverse failed"`, the `TransformNotInvertible` case) or
the object-space discriminant is negative (error
`"Discriminant is lower then 0"`, the `NoIntersection` case); in every
other case it returns exactly two intersection records whose object is the
sphere itself. -/
theorem intersect_failure_conditions {α : Type} [LinearOrderedField α]
    (sqrt : α → α) (s : Sphere α) (ray : Ray α) :
    (¬invertibleM s.transformation →
      s.intersect sqrt ray = Except.error "inverse failed") ∧
    (invertibleM s.transformation → discriminantOf s ray < 0 →
      s.intersect sqrt ray = Except.error "Discriminant is lower then 0") ∧
    (invertibleM s.transformation → 0 ≤ discriminantOf s ray →
      ∃ t1 t2 : α,
        s.intersect sqrt ray = Except.ok [⟨t1, s⟩, ⟨t2, s⟩]) := by
  refine ⟨?_, ?_, ?_⟩
  · intro h
    unfold Sphere.intersect inverseM
    rw [if_neg h]
  · intro h hdisc
    unfold Sphere.intersect inverseM
    rw [if_pos h]
    simp only
    split_ifs with hc
    · rfl
    · exact absurd hdisc hc
  · intro h hdisc
    unfold Sphere.intersect inverseM
    rw [if_pos h]
    simp only
    split_ifs with hc
    · exact absurd hc (not_lt.mpr hdisc)
    · exact ⟨_, _, rfl⟩

/-- Witness for C2: a sphere carrying the singular zero transform makes
intersection fail with the `"inverse failed"` error. -/
theorem intersect_failure_conditions_witness :
    Sphere.intersect (fun x => x) (⟨1, 0⟩ : Sphere ℚ)
      ⟨Tuple.newPoint 0 0 (-5), Tuple.newVector 0 0 1⟩ =
      Except.error "inverse failed" :=
  (intersect_failure_conditions (fun x => x) (⟨1, 0⟩ : Sphere ℚ)
    ⟨Tuple.newPoint 0 0 (-5), Tuple.newVector 0 0 1⟩).1
    (fun h => h (by rw [determinant4_eq]; exact Matrix.det_zero ⟨0⟩))

theorem Tuple.sub_def {α : Type} [LinearOrderedField α] (a b : Tuple α) :
    a - b = ⟨a.x - b.x, a.y - b.y, a.z - b.z, a.w - b.w⟩ := rfl

theorem mulTuple4_identityMatrix {α : Type} [LinearOrderedField α]
    (t : Tuple α) : mulTuple4 identityMatrix t = t := by
  cases t
  simp [mulTuple4, identityMatrix, Matrix.of_apply]

/-- C3: the ray from `point(0, 0, -5)` along `vector(0, 0, 1)` meets the
default unit sphere at t = 4 and t = 6 (in that order) and the sphere
scaled by `(2, 2, 2)` at t = 3 and t = 7. -/
theorem sphere_intersect_examples :
    (Sphere.new 1 : Sphere ℝ).intersect Real.sqrt
      ⟨Tuple.newPoint 0 0 (-5), Tuple.newVector 0 0 1⟩ =
      Except.ok [⟨4, Sphere.new 1⟩, ⟨6, Sphere.new 1⟩] ∧
    ((Sphere.new 1 : Sphere ℝ).setTranslation (scalingM 2 2 2)).intersect
      Real.sqrt ⟨Tuple.newPoint 0 0 (-5), Tuple.newVector 0 0 1⟩ =
      Except.ok [⟨3, (Sphere.new 1).setTranslation (scalingM 2 2 2)⟩,
                 ⟨7, (Sphere.new 1).setTranslation (scalingM 2 2 2)⟩] := by
  constructor
  · have hinv1 : invertibleM (identityMatrix : Matrix (Fin 4) (Fin 4) ℝ) :=
      invertibleM_of_right_inv _ identityMatrix
        (by rw [identityMatrix_eq_one, one_mul])
    have hI : inv4 (identityMatrix : Matrix (Fin 4) (Fin 4) ℝ) =
        identityMatrix := by
      rw [inv4_eq_nonsingInv _ hinv1, identityMatrix_eq_one, inv_one]
    have hs4 : Real.sqrt 4 = 2 := by
      rw [show (4 : ℝ) = 2 ^ 2 by norm_num,
        Real.sqrt_sq (by norm_num : (0 : ℝ) ≤ 2)]
    unfold Sphere.intersect inverseM
    simp only [Sphere.new]
    rw [if_pos hinv1, hI]
    simp only [Ray.transform, mulTuple4_identityMatrix, Tuple.newPoint,
      Tuple.newVector, Tuple.sub_def, Tuple.dotProduct]
    norm_num [hs4]
  · have hprod := scalingM_mul_half (α := ℝ)
    have hinv2 : invertibleM (scalingM (2 : ℝ) 2 2) :=
      invertibleM_of_right_inv _ _ hprod
    have hI2 : inv4 (scalingM (2 : ℝ) 2 2) = scalingM 2⁻¹ 2⁻¹ 2⁻¹ := by
      rw [inv4_eq_nonsingInv _ hinv2]
      exact Matrix.inv_eq_right_inv hprod
    unfold Sphere.intersect inverseM
    simp only [Sphere.setTranslation, Sphere.new]
    rw [if_pos hinv2, hI2]
    simp only [Ray.transform, mulTuple4, scalingM, Matrix.cons_val',
      Matrix.cons_val_zero, Matrix.cons_val_one, Matrix.cons_val_two,
      Matrix.cons_val_three, Matrix.head_cons, Matrix.vecHead,
      Matrix.vecTail, Matrix.empty_val', Matrix.cons_val_fin_one,
      Matrix.head_fin_const, Matrix.of_apply, Tuple.newPoint,
      Tuple.newVector, Tuple.sub_def, Tuple.dotProduct]
    norm_num [Real.sqrt_one]

/-! ### Claim C6: the sphere normal ignores the transform -/

/-- C6: `Sphere::normal_at` is `(point − point(0,0,0)).normalize()` in the
frame passed in — no inverse-transpose correction — and therefore gives
the same result whatever transform the sphere carries. -/
theorem normalAt_ignores_transform {α : Type} [LinearOrderedField α]
    (sqrt : α → α) (s : Sphere α) (p : Tuple α) :
    s.normalAt sqrt p = (p - Tuple.newPoint 0 0 0).normalize sqrt ∧
    ∀ t1 t2 : Matrix (Fin 4) (Fin 4) α,
      (s.setTranslation t1).normalAt sqrt p =
        (s.setTranslation t2).normalAt sqrt p := by
  exact ⟨rfl, fun t1 t2 => rfl⟩

/-! ### Claim C9: tuple equality ignores w -/

/-- C9: tuple equality holds exactly when x, y and z agree within the
absolute tolerance 1e-5; the w components are never compared, so a point
and a vector with the same x, y, z are equal. -/
theorem tupleEq_iff_xyz_close {α : Type} [LinearOrderedField α]
    (a b : Tuple α) :
    (tupleEq a b ↔
      |a.x - b.x| < 1 / 100000 ∧ |a.y - b.y| < 1 / 100000 ∧
      |a.z - b.z| < 1 / 100000) ∧
    ∀ x y z w1 w2 : α, tupleEq ⟨x, y, z, w1⟩ ⟨x, y, z, w2⟩ := by
  constructor
  · exact Iff.rfl
  · intro x y z w1 w2
    refine ⟨?_, ?_, ?_⟩ <;>
      (unfold compareFloats EPSILON; rw [sub_self, abs_zero]; norm_num)

/-! ### Claim C10: matrix × tuple is total only in dimension 4 -/

/-- C10: the matrix-times-tuple operator always iterates indices 0 through
3, so for dimension 2 or 3 it reaches an out-of-bounds access and panics
(`none`), while for dimension 4 it is total and computes the full linear
map `mulTuple4`. -/
theorem mulTupleChecked_dimensions {α : Type} [LinearOrderedField α] :
    (∀ (m : Matrix (Fin 2) (Fin 2) α) (t : Tuple α),
      mulTupleChecked m t = none) ∧
    (∀ (m : Matrix (Fin 3) (Fin 3) α) (t : Tuple α),
      mulTupleChecked m t = none) ∧
    ∀ (m : Matrix (Fin 4) (Fin 4) α) (t : Tuple α),
      mulTupleChecked m t = some (mulTuple4 m t) := by
  refine ⟨fun m t => ?_, fun m t => ?_, fun m t => mulTupleChecked_eq_four m t⟩
  · rfl
  · rfl

/-! ### Colors (color.rs) and the canvas (canvas.rs)

Strings are embedded as `List Char`; `f64` color channels as rationals,
on which the ceiling operation of the channel conversion is exact. -/

/-- Embeds `Color`. -/
structure Color where
  red : ℚ
  green : ℚ
  blue : ℚ
deriving DecidableEq

/-- The per-channel integer of `Color::to_vec_string`:
`(channel * 255.0).ceil() as i32` run through the clamping match
(`n > 255 => 255`, `n < 0 => 0`, else `n`). -/
def clampChannel (channel : ℚ) : ℤ :=
  let n := ⌈channel * 255⌉
  if n > 255 then 255 else if n < 0 then 0 else n

/-- Decimal digit characters of a natural number, most significant first
(the digits produced by integer `to_string` formatting); structured on a
fuel argument so that it evaluates by kernel reduction. -/
def decReprAux : ℕ → ℕ → List Char
  | 0, _ => []
  | fuel + 1, n =>
    if n < 10 then [Nat.digitChar n]
    else decReprAux fuel (n / 10) ++ [Nat.digitChar (n % 10)]

/-- Decimal representation of a natural number (`format!` of `usize`). -/
def decRepr (n : ℕ) : List Char := decReprAux (n + 1) n

/-- `i32::to_string`: decimal digits, with a leading minus sign when
negative (never taken for the clamped channels). -/
def intRepr (n : ℤ) : List Char :=
  if n < 0 then '-' :: decRepr (-n).toNat else decRepr n.toNat

/-- Embeds `Color::to_vec_string`: the three clamped channel strings. -/
def Color.toVecString (c : Color) : List (List Char) :=
  [intRepr (clampChannel c.red), intRepr (clampChannel c.green),
   intRepr (clampChannel c.blue)]

/-- Embeds `Canvas`: width, height and the pixel grid. -/
structure Canvas where
  width : ℕ
  height : ℕ
  pixels : List (List Color)

/-- Embeds `Canvas::new`: all pixels default to color (0, 0, 0). -/
def Canvas.new (width height : ℕ) : Canvas :=
  ⟨width, height, List.replicate height (List.replicate width ⟨0, 0, 0⟩)⟩

/-- Embeds `Canvas::new_with_color`. -/
def Canvas.newWithColor (width height : ℕ) (color : Color) : Canvas :=
  ⟨width, height, List.replicate height (List.replicate width color)⟩

/-- Embeds `Canvas::write_pixel`: row lookup by `height` then an
`e.len() > width` bounds check; the mutation is modelled by returning the
result together with the canvas afterwards, so the error case visibly
leaves every pixel unchanged. -/
def Canvas.writePixel (c : Canvas) (width height : ℕ) (color : Color) :
    Except String Unit × Canvas :=
  match c.pixels.get? height with
  | none => (Except.error "invalid index", c)
  | some row =>
    if row.length > width then
      (Except.ok (),
        { c with pixels := c.pixels.set height (row.set width color) })
    else (Except.error "invalid index", c)

/-- Embeds `Canvas::at_pixel`: the direct indexing
`&self.pixels[height][width]`; `none` is the index-out-of-bounds panic. -/
def Canvas.atPixel (c : Canvas) (width height : ℕ) : Option Color :=
  (c.pixels.get? height).bind fun row => row.get? width

/-! The `ppm_vec : Vec<String>` of `Canvas::to_ppm` is embedded as the pair
of its leading elements and its last element (the only one the code ever
mutates); the final output is the concatenation of all elements. -/

/-- One channel string `c` in `Canvas::to_ppm`: append `"{c} "` to the last
element while `last.len() + c.len() + 3 <= 70`, otherwise close the last
element with a newline and start a fresh element `"{c} "`. -/
def processChannel (st : List (List Char) × List Char) (c : List Char) :
    List (List Char) × List Char :=
  if st.2.length + c.length + 3 ≤ 70 then (st.1, st.2 ++ c ++ [' '])
  else (st.1 ++ [st.2 ++ ['\n']], c ++ [' '])

/-- One pixel in `Canvas::to_ppm`: its three channel strings in order. -/
def processPixel (st : List (List Char) × List Char) (col : Color) :
    List (List Char) × List Char :=
  col.toVecString.foldl processChannel st

/-- One pixel row in `Canvas::to_ppm`: all pixels, then a newline appended
to the last element and a fresh empty element pushed. -/
def processRow (st : List (List Char) × List Char) (row : List Color) :
    List (List Char) × List Char :=
  let st2 := row.foldl processPixel st
  (st2.1 ++ [st2.2 ++ ['\n']], ([] : List Char))

/-- The `"P3\n{} {}\n255\n"` header of `Canvas::to_ppm`. -/
def ppmHeader (c : Canvas) : List Char :=
  ['P', '3', '\n'] ++ decRepr c.width ++ [' '] ++ decRepr c.height ++
    ['\n', '2', '5', '5', '\n']

/-- Embeds `Canvas::to_ppm`: start from `vec![header, String::new()]`,
process every pixel row, and join all elements. -/
def Canvas.toPpm (c : Canvas) : List Char :=
  let st := c.pixels.foldl processRow ([ppmHeader c], [])
  (st.1 ++ [st.2]).flatten

/-- `innerOk limit s cur`: every `'\n'`-terminated line segment of `s`
(the first one continuing a prefix of length `cur`) has at most `limit`
characters before its newline. -/
def innerOk (limit : ℕ) : List Char → ℕ → Bool
  | [], _ => true
  | ch :: rest, cur =>
    if ch = '\n' then decide (cur ≤ limit) && innerOk limit rest 0
    else innerOk limit rest (cur + 1)

/-- `tailLen s cur`: the length of the segment of `s` after its last
newline, continuing a prefix of length `cur`. -/
def tailLen : List Char → ℕ → ℕ
  | [], cur => cur
  | ch :: rest, cur => tailLen rest (if ch = '\n' then 0 else cur + 1)

/-- No line of `s` — maximal newline-free segment, the trailing partial
one included — exceeds `limit` characters. -/
def linesWithin (limit : ℕ) (s : List Char) : Prop :=
  innerOk limit s 0 = true ∧ tailLen s 0 ≤ limit

/-! ### Line-length bookkeeping lemmas -/

theorem innerOk_append (limit : ℕ) (a b : List Char) (cur : ℕ) :
    innerOk limit (a ++ b) cur =
      (innerOk limit a cur && innerOk limit b (tailLen a cur)) := by
  induction a generalizing cur with
  | nil => simp [innerOk, tailLen]
  | cons ch rest ih =>
    by_cases h : ch = '\n'
    · simp [innerOk, tailLen, h, ih, Bool.and_assoc]
    · simp [innerOk, tailLen, h, ih]

theorem tailLen_append (a b : List Char) (cur : ℕ) :
    tailLen (a ++ b) cur = tailLen b (tailLen a cur) := by
  induction a generalizing cur with
  | nil => simp [tailLen]
  | cons ch rest ih => simp [tailLen, ih]

theorem innerOk_of_not_mem (limit : ℕ) (a : List Char) (cur : ℕ)
    (h : '\n' ∉ a) : innerOk limit a cur = true := by
  induction a generalizing cur with
  | nil => rfl
  | cons ch rest ih =>
    rw [List.mem_cons, not_or] at h
    have hch : ¬ch = '\n' := fun hc => h.1 hc.symm
    simp only [innerOk, if_neg hch]
    exact ih _ h.2

theorem tailLen_of_not_mem (a : List Char) (cur : ℕ) (h : '\n' ∉ a) :
    tailLen a cur = cur + a.length := by
  induction a generalizing cur with
  | nil => simp [tailLen]
  | cons ch rest ih =>
    rw [List.mem_cons, not_or] at h
    have hch : ¬ch = '\n' := fun hc => h.1 hc.symm
    simp only [tailLen, if_neg hch, ih _ h.2, List.length_cons]
    omega

theorem digitChar_ne_newline (n : ℕ) : Nat.digitChar n ≠ '\n' := by
  by_cases h : n < 16
  · have hall : ∀ m, m < 16 → Nat.digitChar m ≠ '\n' := by decide
    exact hall n h
  · unfold Nat.digitChar
    repeat rw [if_neg (show ¬_ from by omega)]
    decide

theorem newline_not_mem_decReprAux (fuel : ℕ) :
    ∀ n, '\n' ∉ decReprAux fuel n := by
  induction fuel with
  | zero => intro n; simp [decReprAux]
  | succ f ih =>
    intro n
    unfold decReprAux
    split
    · simp only [List.mem_singleton]
      exact fun h => digitChar_ne_newline n h.symm
    · intro hmem
      rcases List.mem_append.mp hmem with h1 | h2
      · exact ih _ h1
      · exact digitChar_ne_newline _ (List.mem_singleton.mp h2).symm

theorem newline_not_mem_decRepr (n : ℕ) : '\n' ∉ decRepr n :=
  newline_not_mem_decReprAux _ _

theorem decReprAux_length_le (fuel : ℕ) :
    ∀ n k, n < fuel → n < 10 ^ k → 1 ≤ k →
      (decReprAux fuel n).length ≤ k := by
  induction fuel with
  | zero => intro n k h; omega
  | succ f ih =>
    intro n k hn hk hk1
    unfold decReprAux
    by_cases h10 : n < 10
    · rw [if_pos h10]
      simpa using hk1
    · rw [if_neg h10]
      have hn10 : n / 10 < f := by
        have := Nat.div_lt_self (show 0 < n by omega) (show 1 < 10 by omega)
        omega
      have hk2 : 2 ≤ k := by
        by_contra hcon
        have hk1' : k = 1 := by omega
        rw [hk1'] at hk
        simp at hk
        omega
      have hdiv : n / 10 < 10 ^ (k - 1) := by
        rw [Nat.div_lt_iff_lt_mul (by omega : 0 < 10)]
        calc n < 10 ^ k := hk
          _ = 10 ^ (k - 1) * 10 := by
              rw [← pow_succ]
              congr 1
              omega
      have hlen := ih (n / 10) (k - 1) hn10 hdiv (by omega)
      simp only [List.length_append, List.length_singleton]
      omega

theorem decRepr_length_le (n k : ℕ) (hk : n < 10 ^ k) (h1 : 1 ≤ k) :
    (decRepr n).length ≤ k :=
  decReprAux_length_le _ _ _ (Nat.lt_succ_self n) hk h1

theorem intRepr_length_le (n : ℤ) (h0 : 0 ≤ n) (h255 : n ≤ 255) :
    (intRepr n).length ≤ 3 := by
  unfold intRepr
  rw [if_neg (not_lt.mpr h0)]
  apply decRepr_length_le
  · have : (10 : ℕ) ^ 3 = 1000 := by norm_num
    rw [this]
    omega
  · omega

theorem newline_not_mem_intRepr (n : ℤ) : '\n' ∉ intRepr n := by
  unfold intRepr
  split
  · intro hmem
    rcases List.mem_cons.mp hmem with h1 | h2
    · exact absurd h1 (by decide)
    · exact newline_not_mem_decRepr _ h2
  · exact newline_not_mem_decRepr _

theorem clampChannel_bounds (c : ℚ) :
    0 ≤ clampChannel c ∧ clampChannel c ≤ 255 := by
  unfold clampChannel
  dsimp only
  split_ifs <;> omega

theorem toVecString_entry_facts (col : Color) :
    ∀ s ∈ col.toVecString, s.length ≤ 3 ∧ '\n' ∉ s := by
  intro s hs
  have key : ∀ q : ℚ, (intRepr (clampChannel q)).length ≤ 3 ∧
      '\n' ∉ intRepr (clampChannel q) := fun q =>
    ⟨intRepr_length_le _ (clampChannel_bounds q).1 (clampChannel_bounds q).2,
     newline_not_mem_intRepr _⟩
  unfold Color.toVecString at hs
  simp only [List.mem_cons, List.not_mem_nil, or_false] at hs
  rcases hs with rfl | rfl | rfl <;> exact key _

/-- Invariant maintained over the scan of `Canvas::to_ppm`: all completed
elements join into newline-terminated lines of at most 70 characters each,
and the element under construction is newline-free with at most 68
characters. -/
def GoodState (st : List (List Char) × List Char) : Prop :=
  innerOk 70 st.1.flatten 0 = true ∧ tailLen st.1.flatten 0 = 0 ∧
    st.1.flatten.getLast? = some '\n' ∧ '\n' ∉ st.2 ∧ st.2.length ≤ 68

theorem goodState_flush (st : List (List Char) × List Char)
    (h : GoodState st) :
    GoodState (st.1 ++ [st.2 ++ ['\n']], ([] : List Char)) := by
  obtain ⟨h1, h2, h3, h4, h5⟩ := h
  have hlen : tailLen st.2 0 ≤ 70 := by
    rw [tailLen_of_not_mem _ _ h4]
    omega
  refine ⟨?_, ?_, ?_, by simp, by simp⟩
  · simp only [List.flatten_append, List.flatten_cons, List.flatten_nil,
      List.append_nil]
    rw [innerOk_append, h1, h2, innerOk_append,
      innerOk_of_not_mem _ _ _ h4]
    simp [innerOk, hlen]
  · simp only [List.flatten_append, List.flatten_cons, List.flatten_nil,
      List.append_nil]
    rw [tailLen_append, h2, tailLen_append]
    rfl
  · simp only [List.flatten_append, List.flatten_cons, List.flatten_nil,
      List.append_nil]
    rw [List.getLast?_append, List.getLast?_append]
    rfl

theorem goodState_processChannel (st : List (List Char) × List Char)
    (c : List Char) (hc3 : c.length ≤ 3) (hcn : '\n' ∉ c)
    (h : GoodState st) : GoodState (processChannel st c) := by
  obtain ⟨h1, h2, h3, h4, h5⟩ := h
  unfold processChannel
  split_ifs with hlen
  · refine ⟨h1, h2, h3, ?_, ?_⟩
    · intro hmem
      rcases List.mem_append.mp hmem with hm | hm
      · rcases List.mem_append.mp hm with hm2 | hm2
        · exact h4 hm2
        · exact hcn hm2
      · exact absurd (List.mem_singleton.mp hm) (by decide)
    · simp only [List.length_append, List.length_singleton]
      omega
  · have hf := goodState_flush st ⟨h1, h2, h3, h4, h5⟩
    refine ⟨hf.1, hf.2.1, hf.2.2.1, ?_, ?_⟩
    · intro hmem
      rcases List.mem_append.mp hmem with hm | hm
      · exact hcn hm
      · exact absurd (List.mem_singleton.mp hm) (by decide)
    · simp only [List.length_append, List.length_singleton]
      omega

theorem goodState_processPixel (st : List (List Char) × List Char)
    (col : Color) (h : GoodState st) : GoodState (processPixel st col) := by
  have k1 := toVecString_entry_facts col (intRepr (clampChannel col.red))
    (by unfold Color.toVecString; simp)
  have k2 := toVecString_entry_facts col (intRepr (clampChannel col.green))
    (by unfold Color.toVecString; simp)
  have k3 := toVecString_entry_facts col (intRepr (clampChannel col.blue))
    (by unfold Color.toVecString; simp)
  unfold processPixel Color.toVecString
  simp only [List.foldl_cons, List.foldl_nil]
  exact goodState_processChannel _ _ k3.1 k3.2
    (goodState_processChannel _ _ k2.1 k2.2
      (goodState_processChannel _ _ k1.1 k1.2 h))

theorem goodState_foldl_processPixel (row : List Color) :
    ∀ st, GoodState st → GoodState (row.foldl processPixel st) := by
  induction row with
  | nil => intro st h; exact h
  | cons x xs ih => intro st h; exact ih _ (goodState_processPixel _ _ h)

theorem goodState_processRow (st : List (List Char) × List Char)
    (row : List Color) (h : GoodState st) :
    GoodState (processRow st row) :=
  goodState_flush _ (goodState_foldl_processPixel row st h)

theorem goodState_foldl_processRow (rows : List (List Color)) :
    ∀ st, GoodState st → GoodState (rows.foldl processRow st) := by
  induction rows with
  | nil => intro st h; exact h
  | cons r rs ih => intro st h; exact ih _ (goodState_processRow _ _ h)

theorem foldl_processRow_snd (rows : List (List Color)) :
    ∀ st : List (List Char) × List Char, st.2 = [] →
      (rows.foldl processRow st).2 = [] := by
  induction rows with
  | nil => intro st h; exact h
  | cons r rs ih => intro st _; exact ih _ rfl

theorem innerOk_cons_ne (limit : ℕ) (ch : Char) (rest : List Char)
    (cur : ℕ) (h : ch ≠ '\n') :
    innerOk limit (ch :: rest) cur = innerOk limit rest (cur + 1) := by
  simp [innerOk, h]

theorem innerOk_cons_nl (limit : ℕ) (rest : List Char) (cur : ℕ) :
    innerOk limit ('\n' :: rest) cur =
      (decide (cur ≤ limit) && innerOk limit rest 0) := by
  simp [innerOk]

theorem tailLen_cons_ne (ch : Char) (rest : List Char) (cur : ℕ)
    (h : ch ≠ '\n') : tailLen (ch :: rest) cur = tailLen rest (cur + 1) := by
  simp [tailLen, h]

theorem tailLen_cons_nl (rest : List Char) (cur : ℕ) :
    tailLen ('\n' :: rest) cur = tailLen rest 0 := by
  simp [tailLen]

theorem goodState_init (c : Canvas) (hw : c.width < 2 ^ 64)
    (hh : c.height < 2 ^ 64) : GoodState ([ppmHeader c], []) := by
  have hwlen : (decRepr c.width).length ≤ 20 :=
    decRepr_length_le _ 20 (lt_of_lt_of_le hw (by norm_num)) (by norm_num)
  have hhlen : (decRepr c.height).length ≤ 20 :=
    decRepr_length_le _ 20 (lt_of_lt_of_le hh (by norm_num)) (by norm_num)
  have hwnn := newline_not_mem_decRepr c.width
  have hhnn := newline_not_mem_decRepr c.height
  have hA : ∀ cur, innerOk 70 (decRepr c.width) cur = true :=
    fun cur => innerOk_of_not_mem _ _ _ hwnn
  have hB : ∀ cur, innerOk 70 (decRepr c.height) cur = true :=
    fun cur => innerOk_of_not_mem _ _ _ hhnn
  have htA : ∀ cur, tailLen (decRepr c.width) cur =
      cur + (decRepr c.width).length := fun cur => tailLen_of_not_mem _ _ hwnn
  have htB : ∀ cur, tailLen (decRepr c.height) cur =
      cur + (decRepr c.height).length := fun cur => tailLen_of_not_mem _ _ hhnn
  refine ⟨?_, ?_, ?_, by simp, by simp⟩
  · simp only [List.flatten_cons, List.flatten_nil, List.append_nil]
    unfold ppmHeader
    simp only [List.append_assoc, List.cons_append, List.nil_append]
    rw [innerOk_cons_ne 70 'P' _ _ (by decide),
      innerOk_cons_ne 70 '3' _ _ (by decide), innerOk_cons_nl,
      innerOk_append, hA, htA,
      innerOk_cons_ne 70 ' ' _ _ (by decide),
      innerOk_append, hB, htB, innerOk_cons_nl,
      innerOk_cons_ne 70 '2' _ _ (by decide),
      innerOk_cons_ne 70 '5' _ _ (by decide),
      innerOk_cons_ne 70 '5' _ _ (by decide), innerOk_cons_nl]
    simp only [Bool.and_eq_true, decide_eq_true_eq]
    repeat' apply And.intro
    all_goals first | trivial | omega
  · simp only [List.flatten_cons, List.flatten_nil, List.append_nil]
    unfold ppmHeader
    simp only [List.append_assoc, List.cons_append, List.nil_append]
    rw [tailLen_cons_ne 'P' _ _ (by decide),
      tailLen_cons_ne '3' _ _ (by decide), tailLen_cons_nl,
      tailLen_append, htA,
      tailLen_cons_ne ' ' _ _ (by decide),
      tailLen_append, htB, tailLen_cons_nl,
      tailLen_cons_ne '2' _ _ (by decide),
      tailLen_cons_ne '5' _ _ (by decide),
      tailLen_cons_ne '5' _ _ (by decide), tailLen_cons_nl]
    rfl
  · simp only [List.flatten_cons, List.flatten_nil, List.append_nil]
    rw [show ppmHeader c =
        (['P', '3', '\n'] ++ decRepr c.width ++ [' '] ++ decRepr c.height ++
          ['\n', '2', '5', '5']) ++ ['\n'] from by simp [ppmHeader]]
    exact List.getLast?_concat _

/-- C8: the PPM string of every canvas (within the usize range of widths
and heights) has no line longer than 70 characters — the three header
lines included — and ends with a newline character. -/
theorem toPpm_line_limit_and_trailing_newline (c : Canvas)
    (hw : c.width < 2 ^ 64) (hh : c.height < 2 ^ 64) :
    linesWithin 70 c.toPpm ∧ c.toPpm.getLast? = some '\n' := by
  have hinit := goodState_init c hw hh
  have hfin := goodState_foldl_processRow c.pixels _ hinit
  have hsnd : (c.pixels.foldl processRow ([ppmHeader c], [])).2 = [] :=
    foldl_processRow_snd c.pixels _ rfl
  obtain ⟨h1, h2, h3, _, _⟩ := hfin
  unfold Canvas.toPpm linesWithin
  dsimp only
  rw [hsnd]
  simp only [List.flatten_append, List.flatten_cons, List.flatten_nil,
    List.append_nil]
  exact ⟨⟨h1, by rw [h2]; omega⟩, h3⟩

/-- Witness for C8: the 2×1 all-black canvas, usize bounds discharged
numerically. -/
theorem toPpm_line_limit_and_trailing_newline_witness :
    linesWithin 70 (Canvas.new 2 1).toPpm ∧
    (Canvas.new 2 1).toPpm.getLast? = some '\n' :=
  toPpm_line_limit_and_trailing_newline (Canvas.new 2 1)
    (by norm_num [Canvas.new]) (by norm_num [Canvas.new])

/-! ### Claim C7: canvas pixel access -/

/-- C7 counterexample: reading a pixel outside the grid does not return a
recoverable failure — it is the direct indexing `pixels[height][width]`,
which panics (`none`), here on the 2×2 canvas at width index 5. -/
theorem atPixel_out_of_range_panics :
    (Canvas.new 2 2).atPixel 5 0 = none := rfl

/-- C7 as amended: on a well-formed grid, the pixel *write* is
bounds-checked — an out-of-range coordinate returns the `"invalid index"`
error and leaves every pixel unchanged — while the pixel *read* is not:
it panics (`none`) instead of returning a recoverable failure. -/
theorem writePixel_checked_atPixel_panics (c : Canvas) (w h : ℕ)
    (col : Color) (hrows : c.pixels.length = c.height)
    (hcols : ∀ row ∈ c.pixels, row.length = c.width)
    (hoob : c.width ≤ w ∨ c.height ≤ h) :
    c.writePixel w h col = (Except.error "invalid index", c) ∧
    c.atPixel w h = none := by
  by_cases hrow : c.height ≤ h
  · have hnone : c.pixels.get? h = none :=
      List.get?_eq_none.mpr (by omega)
    constructor
    · unfold Canvas.writePixel
      rw [hnone]
    · unfold Canvas.atPixel
      rw [hnone]
      rfl
  · have hwle : c.width ≤ w := by
      rcases hoob with h1 | h1
      · exact h1
      · exact absurd h1 hrow
    have hlt : h < c.pixels.length := by omega
    have hget : c.pixels.get? h = some (c.pixels.get ⟨h, hlt⟩) :=
      List.get?_eq_get hlt
    have hmem : c.pixels.get ⟨h, hlt⟩ ∈ c.pixels := c.pixels.get_mem h hlt
    have hrl : (c.pixels.get ⟨h, hlt⟩).length = c.width := hcols _ hmem
    constructor
    · unfold Canvas.writePixel
      rw [hget]
      dsimp only
      rw [if_neg (by omega : ¬(c.pixels.get ⟨h, hlt⟩).length > w)]
    · unfold Canvas.atPixel
      rw [hget]
      exact List.get?_eq_none.mpr (by omega)

/-- Witness for the amended C7: on the 2×2 canvas, writing at width index
5 errors and leaves the canvas unchanged while reading there panics. -/
theorem writePixel_checked_atPixel_panics_witness :
    (Canvas.new 2 2).writePixel 5 0 ⟨1, 0, 0⟩ =
      (Except.error "invalid index", Canvas.new 2 2) ∧
    (Canvas.new 2 2).atPixel 5 0 = none :=
  writePixel_checked_atPixel_panics (Canvas.new 2 2) 5 0 ⟨1, 0, 0⟩
    (by simp [Canvas.new])
    (by
      simp only [Canvas.new]
      intro row hrow
      rw [List.eq_of_mem_replicate hrow]
      simp)
    (by simp [Canvas.new])

end RayTracer
